import Mathlib

/-!
Verification of the synchronization and reconciliation engine of a
GitHub-issues-to-Notion sync action (sources: `src/action.ts`, `src/sync.ts`).

The TypeScript sources are shallowly embedded: pure text processing
(`removeHTML`, `preprocessMarkdown`) is translated to executable functions on
`List Char` (JS regular-expression replacement is modelled by left-to-right
scanners with the same match semantics); the remote Notion/GitHub clients are
modelled as explicit inputs (lists of query results, page listings, oracles
for fallible create calls); `async` code that can throw is modelled in
`Except String`; the concurrent fan-out of `Promise.allSettled` is modelled
as an event trace in which every attempt settles before the aggregate error
is raised.  The external markdown library `@tryfabric/martian`
(`markdownToRichText`) is not part of this repository; functions that call it
take it as an oracle argument, and `martianModel` below provides an instance
modelled from the spec.

All scanners take an explicit fuel argument (first parameter) so that every
definition is structurally recursive and evaluable by `rfl`/`decide`; each
step consumes at least one character, so fuel equal to the input length is
always sufficient, and the public wrappers pass exactly that.
-/

namespace NotionSync

/-- Wire shape of one rich-text span's annotation object, from the fallback
object literal in `parseBodyRichText` (action.ts lines 68-75).  The JS field
name is `annotations`; here the containing field is called `style`. -/
structure SpanStyle where
  bold : Bool
  strikethrough : Bool
  underline : Bool
  italic : Bool
  code : Bool
  color : String
deriving DecidableEq

/-- One rich-text span, from the fallback object literal in
`parseBodyRichText` (action.ts lines 62-77): `{type, text: {content},
annotations}`; here the annotation object is the `style` field, and `href`
holds a link target when present (absent, i.e. `none`, in the fallback
object). -/
structure RichTextSpan where
  type : String
  content : String
  style : SpanStyle
  href : Option String
deriving DecidableEq

/-- A plain (unannotated) text span, exactly the fallback object built at
action.ts lines 62-77. -/
def plainSpan (content : String) : RichTextSpan :=
  ⟨"text", content, ⟨false, false, false, false, false, "default"⟩, none⟩

/-- A bold text span (all other annotations default), the shape the markdown
parser produces for `**text**` emphasis. -/
def boldSpan (content : String) : RichTextSpan :=
  ⟨"text", content, ⟨true, false, false, false, false, "default"⟩, none⟩

/-- An italic text span, for `*text*` / `_text_` emphasis. -/
def italicSpan (content : String) : RichTextSpan :=
  ⟨"text", content, ⟨false, false, false, true, false, "default"⟩, none⟩

/-- A code-annotated text span, for `` `text` `` code spans. -/
def codeSpan (content : String) : RichTextSpan :=
  ⟨"text", content, ⟨false, false, false, false, true, "default"⟩, none⟩

/-- A strikethrough text span, for `~~text~~`. -/
def strikeSpan (content : String) : RichTextSpan :=
  ⟨"text", content, ⟨false, true, false, false, false, "default"⟩, none⟩

/-- A link text span, for `[text](url)`. -/
def linkSpan (content url : String) : RichTextSpan :=
  ⟨"text", content, ⟨false, false, false, false, false, "default"⟩, some url⟩

/-- JS whitespace (`\s` in a regex, and what `String.prototype.trim` strips),
restricted to the ASCII whitespace characters that can occur here. -/
def isSpace (c : Char) : Bool :=
  c == ' ' || c == '\t' || c == '\n' || c == '\r'

/-- Scanning past a `>`: returns the suffix after the first `>` in the list,
or `none` when there is no `>`.  Helper for the regex `/<[^>]+>/`. -/
def afterGtClose : List Char → Option (List Char)
  | [] => none
  | c :: cs => if c = '>' then some cs else afterGtClose cs

/-- Given the characters following a `<`, returns the suffix after the
closing `>` of a match of `/<[^>]+>/` starting at that `<`, or `none` when
the regex does not match there (no following `>` , or `<>` with an empty
body). -/
def afterTagClose : List Char → Option (List Char)
  | [] => none
  | c :: cs => if c = '>' then none else afterGtClose cs

/-- Fuelled scanner for `text.replace(/<[^>]+>/g, '')` (action.ts line 16):
at each `<` that starts a match, the whole tag is dropped and scanning
resumes after its `>`; all other characters are kept. -/
def stripTagsF : Nat → List Char → List Char
  | 0, l => l
  | _ + 1, [] => []
  | fuel + 1, c :: cs =>
    if c = '<' then
      match afterTagClose cs with
      | some rest => stripTagsF fuel rest
      | none => c :: stripTagsF fuel cs
    else c :: stripTagsF fuel cs

/-- Splits off the leading whitespace run of the input at its last newline:
`some rest` where `rest` is the suffix right after the last `'\n'` inside
the maximal leading `\s`-run, or `none` when that run has no newline.
Helper for the backtracking semantics of `/\n\s*\n/`. -/
def lastNLsplit : List Char → Option (List Char)
  | [] => none
  | c :: cs =>
    if isSpace c then
      match lastNLsplit cs with
      | some rest => some rest
      | none => if c = '\n' then some cs else none
    else none

/-- Fuelled scanner for `text.replace(/\n\s*\n/g, '\n')` (action.ts line
17).  A match starting at a `'\n'` extends, by greedy `\s*` with
backtracking, to the last `'\n'` of the following whitespace run; the whole
match is replaced by a single `'\n'` and scanning resumes after it. -/
def collapseNLF : Nat → List Char → List Char
  | 0, l => l
  | _ + 1, [] => []
  | fuel + 1, c :: cs =>
    if c = '\n' then
      match lastNLsplit cs with
      | some rest => '\n' :: collapseNLF fuel rest
      | none => c :: collapseNLF fuel cs
    else c :: collapseNLF fuel cs

/-- `String.prototype.trim()`: drop leading and trailing whitespace. -/
def trimChars (l : List Char) : List Char :=
  ((l.dropWhile isSpace).reverse.dropWhile isSpace).reverse

def stripTags (l : List Char) : List Char := stripTagsF l.length l

def collapseNL (l : List Char) : List Char := collapseNLF l.length l

/-- `removeHTML` (action.ts lines 12-19): the `if (!text) return ''` falsy
guard (for a string argument: the empty string), then strip all HTML tags,
normalize blank-line runs to single newlines, and trim. -/
def removeHTML (text : String) : String :=
  if text = "" then ""
  else String.mk (trimChars (collapseNL (stripTags text.toList)))

/-- Whether a list starts with `!--` (the rest of a `<!--` comment opener).
Helper for the regex `/<!--[\s\S]*?-->/`. -/
def isCommentOpen : List Char → Bool
  | '!' :: '-' :: '-' :: _ => true
  | _ => false

/-- Returns the suffix after the first `-->` in the list (the lazy
`[\s\S]*?` of `/<!--[\s\S]*?-->/` stops at the first closer), or `none`. -/
def afterCommentClose : List Char → Option (List Char)
  | '-' :: '-' :: '>' :: cs => some cs
  | _ :: cs => afterCommentClose cs
  | [] => none

/-- Fuelled scanner for `text.replace(/<!--[\s\S]*?-->/g, '')` (action.ts
line 23). -/
def stripCommentsF : Nat → List Char → List Char
  | 0, l => l
  | _ + 1, [] => []
  | fuel + 1, c :: cs =>
    if c = '<' then
      if isCommentOpen cs then
        match afterCommentClose (cs.drop 3) with
        | some rest => stripCommentsF fuel rest
        | none => c :: stripCommentsF fuel cs
      else c :: stripCommentsF fuel cs
    else c :: stripCommentsF fuel cs

/-- For a heading line whose text after `#+` is all whitespace reaching the
end of input: the greedy `\s+` of `/^#+\s+(.+)$/` backtracks until `(.+)`
can take at least one non-newline character at index `k ≥ 1` of the run; the
capture is that single character (everything after it in the run is
newlines) and the remainder is those trailing newlines.  Returns `none` when
no such position exists, i.e. the regex does not match. -/
def trailingPick (run : List Char) : Option (Char × List Char) :=
  match run.reverse.dropWhile (fun x => x == '\n') with
  | [] => none
  | a :: b =>
    if b = [] then none
    else some (a, List.replicate ((run.reverse.takeWhile (fun x => x == '\n')).length) '\n')

/-- Fuelled scanner for `text.replace(/^#+\s+(.+)$/gm, '**$1**')` (action.ts
line 26).  The Boolean argument tracks whether the current position is a
line start (where `^` can match under the `m` flag).  At a line-start `#`:
take the maximal `#`-run, then the maximal `\s`-run; if characters remain on
the line the capture runs to the line end ( `$` under `m` matches before a
`'\n'` or at the end); otherwise the backtracking case `trailingPick`
applies.  The replacement wraps the capture in `**`. -/
def headingRewriteF : Nat → Bool → List Char → List Char
  | 0, _, l => l
  | _ + 1, _, [] => []
  | fuel + 1, atStart, c :: cs =>
    if atStart = true ∧ c = '#' then
      let rest1 := (c :: cs).dropWhile (fun x => x == '#')
      let run := rest1.takeWhile isSpace
      let tail2 := rest1.dropWhile isSpace
      if run = [] then c :: headingRewriteF fuel false cs
      else if tail2 = [] then
        match trailingPick run with
        | some (ch, rem) => '*' :: '*' :: ch :: '*' :: '*' :: headingRewriteF fuel false rem
        | none => c :: headingRewriteF fuel false cs
      else
        '*' :: '*' ::
          (tail2.takeWhile (fun x => !(x == '\n')) ++
            '*' :: '*' :: headingRewriteF fuel false (tail2.dropWhile (fun x => !(x == '\n'))))
    else c :: headingRewriteF fuel (c == '\n') cs

/-- Whether a list starts with `[`.  Helper for `/!\[([^\]]*)\]\([^)]*\)/`. -/
def bracketOpen : List Char → Bool
  | '[' :: _ => true
  | _ => false

/-- Given the suffix starting at the `]` candidate of an image reference,
checks for `](`…`)` and returns the suffix after the closing `)`. -/
def afterImageClose : List Char → Option (List Char)
  | ']' :: '(' :: cs2 =>
    match cs2.dropWhile (fun x => !(x == ')')) with
    | ')' :: cs3 => some cs3
    | _ => none
  | _ => none

/-- Fuelled scanner for
`text.replace(/!\[([^\]]*)\]\([^)]*\)/g, '$1 (image)')` (action.ts line
29): a markdown image becomes its alt text followed by a literal
` (image)`. -/
def imageRewriteF : Nat → List Char → List Char
  | 0, l => l
  | _ + 1, [] => []
  | fuel + 1, c :: cs =>
    if c = '!' ∧ bracketOpen cs = true then
      match afterImageClose ((cs.drop 1).dropWhile (fun x => !(x == ']'))) with
      | some rest2 =>
        ((cs.drop 1).takeWhile (fun x => !(x == ']'))) ++
          ' ' :: '(' :: 'i' :: 'm' :: 'a' :: 'g' :: 'e' :: ')' :: imageRewriteF fuel rest2
      | none => c :: imageRewriteF fuel cs
    else c :: imageRewriteF fuel cs

def stripComments (l : List Char) : List Char := stripCommentsF l.length l

def headingRewrite (l : List Char) : List Char := headingRewriteF l.length true l

def imageRewrite (l : List Char) : List Char := imageRewriteF l.length l

/-- `preprocessMarkdown` (action.ts lines 21-32): remove HTML comments,
rewrite heading markdown to bold text, replace markdown images by their alt
text plus ` (image)`. -/
def preprocessMarkdown (text : String) : String :=
  String.mk (imageRewrite (headingRewrite (stripComments text.toList)))

/-- Whether a list starts with the character `m`. -/
def headIs (m : Char) : List Char → Bool
  | x :: _ => x == m
  | [] => false

/-- Splits a list at the first doubled marker `mm` (e.g. `**`, `~~`):
`some (before, after)` with the marker pair removed, or `none` when the
list contains no `mm`. -/
def splitAtMark2 (m : Char) : List Char → Option (List Char × List Char)
  | [] => none
  | c :: cs =>
    if c = m ∧ headIs m cs = true then some ([], cs.drop 1)
    else
      match splitAtMark2 m cs with
      | some (a, b) => some (c :: a, b)
      | none => none

/-- Splits a list at the first occurrence of the character `m`:
`some (before, after)` with `m` removed, or `none`. -/
def splitAtChar (m : Char) : List Char → Option (List Char × List Char)
  | [] => none
  | c :: cs =>
    if c = m then some ([], cs)
    else
      match splitAtChar m cs with
      | some (a, b) => some (c :: a, b)
      | none => none

/-- Given the characters following a `[`, checks for the link shape
`text](url)` and returns `(text, url, rest)`. -/
def linkSplit (cs : List Char) : Option (List Char × List Char × List Char) :=
  match cs.dropWhile (fun x => !(x == ']')) with
  | ']' :: '(' :: cs2 =>
    match cs2.dropWhile (fun x => !(x == ')')) with
    | ')' :: cs3 =>
      some (cs.takeWhile (fun x => !(x == ']')), cs2.takeWhile (fun x => !(x == ')')), cs3)
    | _ => none
  | _ => none

/-- Whether a character can start a markup construct of the lightweight
parser: `*` (bold/italic), `_` (italic), a backtick (code span), `~`
(strikethrough), `[` (link). -/
def isMarkerChar (c : Char) : Bool :=
  c == '*' || c == '_' || c == '\x60' || c == '~' || c == '['

/-- Modelled from the spec: step 5 of the Rich-Text Converter pipeline
(§4.1), the external lightweight-markup parser `markdownToRichText` of the
`@tryfabric/martian` library, which is not part of this repository.  Per
the spec it parses the resulting text as lightweight markup — bold,
italic, code spans, strikethrough, links, paragraphs — into the structured
rich-text span sequence, leaving other characters as literal text content.
This model parses `**`…`**` into bold spans, `~~`…`~~` into strikethrough
spans, backtick-delimited code spans, `*`…`*` and `_`…`_` into italic
spans, `[text](url)` into link spans, and accumulates every other
character into plain text spans (paragraph structure is carried by the
single paragraph block of `getBodyChildrenBlocks`, not by the spans); an
unclosed construct degrades to literal text.  `fuel` as in the other
scanners. -/
def martianSpansF : Nat → List Char → List RichTextSpan
  | 0, l => if l = [] then [] else [plainSpan (String.mk l)]
  | _ + 1, [] => []
  | fuel + 1, '*' :: '*' :: cs =>
    match splitAtMark2 '*' cs with
    | some (inner, rest) => boldSpan (String.mk inner) :: martianSpansF fuel rest
    | none => [plainSpan (String.mk ('*' :: '*' :: cs))]
  | fuel + 1, '~' :: '~' :: cs =>
    match splitAtMark2 '~' cs with
    | some (inner, rest) => strikeSpan (String.mk inner) :: martianSpansF fuel rest
    | none => [plainSpan (String.mk ('~' :: '~' :: cs))]
  | fuel + 1, '\x60' :: cs =>
    match splitAtChar '\x60' cs with
    | some (inner, rest) => codeSpan (String.mk inner) :: martianSpansF fuel rest
    | none => [plainSpan (String.mk ('\x60' :: cs))]
  | fuel + 1, '*' :: cs =>
    match splitAtChar '*' cs with
    | some (inner, rest) => italicSpan (String.mk inner) :: martianSpansF fuel rest
    | none => [plainSpan (String.mk ('*' :: cs))]
  | fuel + 1, '_' :: cs =>
    match splitAtChar '_' cs with
    | some (inner, rest) => italicSpan (String.mk inner) :: martianSpansF fuel rest
    | none => [plainSpan (String.mk ('_' :: cs))]
  | fuel + 1, '[' :: cs =>
    match linkSplit cs with
    | some (tx, url, rest) => linkSpan (String.mk tx) (String.mk url) :: martianSpansF fuel rest
    | none => [plainSpan (String.mk ('[' :: cs))]
  | fuel + 1, c :: cs =>
    plainSpan (String.mk (c :: cs.takeWhile (fun x => !(isMarkerChar x)))) ::
      martianSpansF fuel (cs.dropWhile (fun x => !(isMarkerChar x)))

def martianSpans (l : List Char) : List RichTextSpan := martianSpansF l.length l

/-- Modelled from the spec: the success behaviour of the external
`markdownToRichText` (see `martianSpansF`), wrapped as an oracle of the type
`parseBodyRichText` consumes. -/
def martianModel (s : String) : Except String (List RichTextSpan) :=
  Except.ok (martianSpans s.toList)

/-- JS `s.substring(0, n)`: the first `n` units of `s`. -/
def jsSubstring (s : String) (n : Nat) : String := String.mk (s.toList.take n)

/-- `parseBodyRichText` (action.ts lines 52-81).  The external
`markdownToRichText` call is the oracle `md` (a throwing call is an
`Except.error`).  On success its spans are returned; on any thrown error the
fallback returns a single plain span with the tag-stripped body truncated to
2000 units, or the empty list when that text is empty. -/
def parseBodyRichText (md : String → Except String (List RichTextSpan)) (body : String) :
    List RichTextSpan :=
  match md (preprocessMarkdown (removeHTML body)) with
  | Except.ok spans => spans
  | Except.error _ =>
    let cleanBody := removeHTML body
    if cleanBody.length > 0 then [plainSpan (jsSubstring cleanBody 2000)] else []

/-- One content block (`getBodyChildrenBlocks` builds a single paragraph
block; action.ts lines 83-93). -/
inductive ContentBlock where
  | paragraph (rich : List RichTextSpan)
deriving DecidableEq

/-- `getBodyChildrenBlocks` (action.ts lines 83-93): exactly one paragraph
block holding the converted body. -/
def getBodyChildrenBlocks (md : String → Except String (List RichTextSpan)) (body : String) :
    List ContentBlock :=
  [ContentBlock.paragraph (parseBodyRichText md body)]

/-- An already-persisted Notion block as returned by
`blocks.children.list`; the code only reads its `id`. -/
structure NotionBlock where
  id : String
deriving DecidableEq

/-- The update/append/delete plan that `handleIssueEdited` executes against
the existing blocks (action.ts lines 162-184): `overlap = min` of the two
lengths; position `i` of the desired list is paired with the id of position
`i` of the existing list for `i < overlap` (the `slice(0, overlap)` /
`existingBlocks[index]` pairing); the desired tail is appended when the
desired list is longer; the existing tail is deleted when it is shorter. -/
structure ReconcilePlan (α : Type) where
  toUpdate : List (String × α)
  toAppend : List α
  toDelete : List String
deriving DecidableEq

/-- The block-reconciliation computation of `handleIssueEdited` (action.ts
lines 162-184), extracted over an arbitrary block type. -/
def reconcilePlan {α : Type} (bodyBlocks : List α) (existingBlocks : List NotionBlock) :
    ReconcilePlan α :=
  let overlap := min bodyBlocks.length existingBlocks.length
  { toUpdate := ((existingBlocks.take overlap).map NotionBlock.id).zip (bodyBlocks.take overlap)
    toAppend := if existingBlocks.length < bodyBlocks.length then bodyBlocks.drop overlap else []
    toDelete :=
      if bodyBlocks.length < existingBlocks.length then
        (existingBlocks.drop overlap).map NotionBlock.id
      else [] }

/-- The fields of the issue-edited webhook payload that
`handleIssueEdited` reads. -/
structure EditPayload where
  issueId : Int
  number : Int
  body : String
deriving DecidableEq

/-- Observable actions of `handleIssueEdited`, in program order. -/
inductive EditEv where
  | updatedPage (pageId : String)
  | updatedBlock (blockId : String)
  | appendedBlocks (pageId : String) (count : Nat)
  | deletedBlock (blockId : String)
  | warnedNotFound (issueId : Int)
  | createdPage (issueId : Int)
deriving DecidableEq

/-- `handleIssueEdited` (action.ts lines 127-208).  `queryResults` is the
list of page ids the `databases.query` on the `ID` property returned
(`page_size: 1`), `existingBlocks` the result of `blocks.children.list`.
If a page was found, its properties are updated and the block plan
executed; otherwise a warning is logged and a new page created.  After the
branch, lines 197-207 run unconditionally: `const pageId =
query.results[0].id` re-reads the first query result; on an empty result
list `query.results[0]` is `undefined` in JS and reading `.id` throws a
TypeError, modelled as the `Except.error`.  In the found case the same page
has its properties updated a second time. -/
def handleIssueEdited (md : String → Except String (List RichTextSpan))
    (queryResults : List String) (existingBlocks : List NotionBlock)
    (payload : EditPayload) : List EditEv × Except String Unit :=
  let bodyBlocks := getBodyChildrenBlocks md payload.body
  let branch : List EditEv :=
    match queryResults with
    | pageId :: _ =>
      let plan := reconcilePlan bodyBlocks existingBlocks
      [EditEv.updatedPage pageId]
        ++ plan.toUpdate.map (fun u => EditEv.updatedBlock u.1)
        ++ (if existingBlocks.length < bodyBlocks.length then
              [EditEv.appendedBlocks pageId plan.toAppend.length]
            else [])
        ++ plan.toDelete.map EditEv.deletedBlock
    | [] => [EditEv.warnedNotFound payload.issueId, EditEv.createdPage payload.issueId]
  match queryResults with
  | pageId :: _ => (branch ++ [EditEv.updatedPage pageId], Except.ok ())
  | [] => (branch, Except.error "TypeError: Cannot read properties of undefined (reading id)")

/-- The fields of a GitHub issue that the reconciliation driver reads. -/
structure Issue where
  number : Int
  title : String
deriving DecidableEq

/-- The `Map<number, string>` from issue number to Notion page id, as an
association list in insertion order.  Keys are `Option Int` because the
code can insert a JS `null` number (see `extractPageEntries`); `none`
models `null`. -/
abbrev IssueMap := List (Option Int × String)

/-- JS `Map.has`. -/
def mapHas (m : IssueMap) (k : Option Int) : Bool := m.any (fun kv => kv.1 == k)

/-- JS `Map.set`: overwrite in place when the key exists (keeping insertion
order), append otherwise. -/
def mapSet (m : IssueMap) (k : Option Int) (v : String) : IssueMap :=
  if m.any (fun kv => kv.1 == k) then
    m.map (fun kv => if kv.1 == k then (k, v) else kv)
  else m ++ [(k, v)]

/-- JS `Map.get`. -/
def mapLookup (m : IssueMap) (k : Option Int) : Option String :=
  (m.find? (fun kv => kv.1 == k)).map Prod.snd

/-- Two mappings are equal as maps: every key resolves identically. -/
def mapEquiv (m1 m2 : IssueMap) : Prop := ∀ k, mapLookup m1 k = mapLookup m2 k

/-- `getIssuesNotInNotion` (sync.ts lines 397-405): the loop pushing every
issue whose number the mapping does not contain. -/
def getIssuesNotInNotion (issuePageIds : IssueMap) (issues : List Issue) : List Issue :=
  issues.foldl
    (fun acc issue => if mapHas issuePageIds (some issue.number) then acc else acc ++ [issue]) []

/-- Observable events of the creation fan-out in `createPages`: each create
attempt settling (successfully or not), and the aggregate error raised
afterwards. -/
inductive SyncEv where
  | created (number : Int)
  | createFailed (number : Int) (reason : String)
  | raised (msg : String)
deriving DecidableEq

/-- The settlement event of one create attempt.  `attempt` is the oracle
for `notion.pages.create` (plus the property mapping) on one issue: a
thrown error is `Except.error`. -/
def attemptEv (attempt : Issue → Except String Unit) (i : Issue) : SyncEv :=
  match attempt i with
  | Except.ok _ => SyncEv.created i.number
  | Except.error e => SyncEv.createFailed i.number e

/-- The rejection reasons among the settled results, in attempt order: the
`results.filter(r => r.status === 'rejected')` of sync.ts line 440. -/
def failuresOf (attempt : Issue → Except String Unit) (pages : List Issue) : List String :=
  pages.filterMap (fun i =>
    match attempt i with
    | Except.error e => some e
    | Except.ok _ => none)

/-- Event trace of `createPages` (sync.ts lines 408-447): early return on an
empty list; otherwise `Promise.allSettled` settles every attempt (one event
per issue, in listing order), and afterwards, when at least one attempt was
rejected, `new Error` carrying the first rejection's reason is thrown. -/
def createPagesTrace (attempt : Issue → Except String Unit) (pagesToCreate : List Issue) :
    List SyncEv :=
  if pagesToCreate.isEmpty then []
  else
    pagesToCreate.map (attemptEv attempt) ++
      match failuresOf attempt pagesToCreate with
      | [] => []
      | e :: _ => [SyncEv.raised ("Failed to create pages in Notion: " ++ e)]

/-- Event trace of `syncNotionDBWithGitHub` (sync.ts lines 305-327) after
the source fetch: compute the missing issues and run the creation
fan-out. -/
def syncNotionDBWithGitHubTrace (issuePageIds : IssueMap) (issues : List Issue)
    (attempt : Issue → Except String Unit) : List SyncEv :=
  createPagesTrace attempt (getIssuesNotInNotion issuePageIds issues)

/-- The create-entry requests a trace contains (each settled attempt is one
issued `pages.create` request), by issue number in order. -/
def createRequests (tr : List SyncEv) : List Int :=
  tr.filterMap (fun e =>
    match e with
    | SyncEv.created n => some n
    | SyncEv.createFailed n _ => some n
    | SyncEv.raised _ => none)

/-- The shape of the `Number` property of one retrieved ledger page, as the
code reads it via `page.properties['Number'].number` (sync.ts line 358):
the `Number` key can be absent from `properties` (reading `.number` of
`undefined` then throws a TypeError), present but of a non-number property
type (its `number` field is `undefined`), present with a `null` value, or
present with a numeric value. -/
inductive NumberProp where
  | absent
  | notNumberType
  | nullVal
  | num (n : Int)
deriving DecidableEq

/-- One page of a ledger database query result.  `hasProperties` models the
`'properties' in page` narrowing check (sync.ts line 356). -/
structure LedgerPage where
  id : String
  hasProperties : Bool
  numberProp : NumberProp
deriving DecidableEq

/-- The element type accumulated by `getIssuesAlreadyInNotion`; the issue
number is `Option Int` because the code can push a JS `null` (`none`). -/
structure PageIdAndIssueNumber where
  pageId : String
  issueNumber : Option Int
deriving DecidableEq

/-- The `pages.forEach` extraction of `getIssuesAlreadyInNotion` (sync.ts
lines 355-365): skip pages without `properties`; read
`properties['Number'].number` (throwing when the `Number` key is absent);
push `{pageId, issueNumber}` whenever that value is not `undefined` — which
holds for a numeric value and also for `null`. -/
def extractPageEntries : List LedgerPage → Except String (List PageIdAndIssueNumber)
  | [] => Except.ok []
  | p :: ps =>
    if p.hasProperties then
      match p.numberProp with
      | NumberProp.absent =>
        Except.error "TypeError: Cannot read properties of undefined (reading number)"
      | NumberProp.notNumberType => extractPageEntries ps
      | NumberProp.nullVal => (extractPageEntries ps).map (⟨p.id, none⟩ :: ·)
      | NumberProp.num n => (extractPageEntries ps).map (⟨p.id, some n⟩ :: ·)
    else extractPageEntries ps

/-- The cursor pagination loop of `getIssuesAlreadyInNotion` (sync.ts lines
336-351): `ledger` maps a start cursor (initially `none` for `undefined`)
to one query response `(results, next_cursor)`; pages are accumulated until
a response returns a null cursor.  `fuel` bounds the number of requests
(the loop itself has no bound). -/
def collectPages (ledger : Option String → List LedgerPage × Option String) :
    Nat → Option String → List LedgerPage
  | 0, _ => []
  | fuel + 1, cursor =>
    let resp := ledger cursor
    match resp.2 with
    | none => resp.1
    | some c => resp.1 ++ collectPages ledger fuel (some c)

/-- `getIssuesAlreadyInNotion` (sync.ts lines 330-375): paginate the whole
database, then extract `(pageId, issueNumber)` pairs; any error
propagates. -/
def getIssuesAlreadyInNotion (ledger : Option String → List LedgerPage × Option String)
    (fuel : Nat) : Except String (List PageIdAndIssueNumber) :=
  extractPageEntries (collectPages ledger fuel none)

/-- `createIssueMapping` (sync.ts lines 290-303): fold the retrieved pairs
into a `Map` with `issuePageIds.set(issueNumber, pageId)`. -/
def createIssueMapping (ledger : Option String → List LedgerPage × Option String)
    (fuel : Nat) : Except String IssueMap :=
  (getIssuesAlreadyInNotion ledger fuel).map
    (fun entries => entries.foldl (fun m pe => mapSet m pe.issueNumber pe.pageId) [])

/-- Which of the three top-level handlers `run` selects. -/
inductive HandlerChoice where
  | opened
  | workflowDispatch
  | edited
deriving DecidableEq

/-- The dispatch chain of `run` (action.ts lines 238-271): `payload.action
=== 'opened'`, else `eventName === 'workflow_dispatch'`, else the
issue-edited handler. -/
def chooseHandler (payloadAction : Option String) (eventName : String) : HandlerChoice :=
  if payloadAction = some "opened" then HandlerChoice.opened
  else if eventName = "workflow_dispatch" then HandlerChoice.workflowDispatch
  else HandlerChoice.edited

/-- The configuration surface of `run` that decides validation and
dispatch. -/
structure RunOptions where
  databaseId : String
  payloadAction : Option String
  eventName : String
deriving DecidableEq

/-- `run` (action.ts lines 222-274): first the validation `if
(!notion.databaseId || notion.databaseId.length === 0) throw` — for a
string both disjuncts hold exactly when it is empty — and only afterwards
are the clients constructed and one handler invoked.  `net` gives the
network-call list and outcome of whichever handler is selected; a failed
validation returns before any of them runs, so its call list is empty. -/
def run (o : RunOptions) (net : HandlerChoice → List String × Except String Unit) :
    List String × Except String Unit :=
  if o.databaseId = "" then
    ([], Except.error "Notion database ID is not configured. Please set the notion-db input parameter.")
  else net (chooseHandler o.payloadAction o.eventName)

/-- Whether one line is heading markup: one or more `#`, whitespace, then at
least one more character (the shape `/^#+\s+(.+)$/` rewrites, §4.1 step 3 of
the spec). -/
def isHeadingLine (l : List Char) : Bool :=
  !((l.takeWhile (fun c => c == '#')).isEmpty) &&
    !(((l.dropWhile (fun c => c == '#')).takeWhile isSpace).isEmpty) &&
    !(((l.dropWhile (fun c => c == '#')).dropWhile isSpace).isEmpty)

/-- Whether a body contains heading markup on some line. -/
def hasHeadingMarkup (s : String) : Bool :=
  (s.toList.splitOn '\n').any isHeadingLine

/-- A well-formed heading `(level, text)` for the amended C7: a positive
marker count and nonempty heading text that contains no markup character
(`#`, `*`, `<`, `!`, `_`, backtick, `~`, `[`) and no newline and neither
starts nor ends with whitespace. -/
def ValidHeading (p : Nat × List Char) : Prop :=
  0 < p.1 ∧ p.2 ≠ [] ∧
    (∀ c ∈ p.2, c ≠ '#' ∧ c ≠ '*' ∧ c ≠ '<' ∧ c ≠ '!' ∧ c ≠ '\n' ∧ c ≠ '_' ∧
      c ≠ '\x60' ∧ c ≠ '~' ∧ c ≠ '[') ∧
    p.2.head?.all (fun c => !(isSpace c)) = true ∧
    p.2.reverse.head?.all (fun c => !(isSpace c)) = true

instance (p : Nat × List Char) : Decidable (ValidHeading p) := by
  unfold ValidHeading
  infer_instance

/-- The body made of the given heading lines (marker run, one space,
heading text), separated by single newlines. -/
def headingLines : List (Nat × List Char) → List Char
  | [] => []
  | [p] => List.replicate p.1 '#' ++ ' ' :: p.2
  | p :: rest => (List.replicate p.1 '#' ++ ' ' :: p.2) ++ '\n' :: headingLines rest

/-- What `preprocessMarkdown` turns `headingLines` into: each heading line
rewritten to its text wrapped in `**`, newline separators kept. -/
def boldLines : List (Nat × List Char) → List Char
  | [] => []
  | [p] => '*' :: '*' :: (p.2 ++ ['*', '*'])
  | p :: rest => ('*' :: '*' :: (p.2 ++ ['*', '*'])) ++ '\n' :: boldLines rest

/-- The converter output for `headingLines`: one bold span per heading
text, with plain newline spans between consecutive headings. -/
def headingSpans : List (Nat × List Char) → List RichTextSpan
  | [] => []
  | [p] => [boldSpan (String.mk p.2)]
  | p :: rest => boldSpan (String.mk p.2) :: plainSpan "\n" :: headingSpans rest

/-- Sample create oracle for witnesses: the create call fails exactly for
issue number 2. -/
def attemptSample : Issue → Except String Unit :=
  fun i => if i.number = 2 then Except.error "boom" else Except.ok ()

/-- Sample missing-issue list for witnesses. -/
def pagesSample : List Issue := [⟨1, "a"⟩, ⟨2, "b"⟩, ⟨3, "c"⟩]

/-- Sample markdown oracle that always throws, for exercising the fallback
path of `parseBodyRichText`. -/
def mdFail : String → Except String (List RichTextSpan) :=
  fun _ => Except.error "parse failure"

/-- Sample one-page ledger for witnesses. -/
def ledgerSample : Option String → List LedgerPage × Option String :=
  fun _ => ([⟨"p1", true, NumberProp.num 1⟩], none)

/-- Sample handler network behaviour for witnesses. -/
def netSample : HandlerChoice → List String × Except String Unit :=
  fun _ => (["pages.create"], Except.ok ())

/-- Sample handler network behaviour distinguishing the edited handler. -/
def netEdit : HandlerChoice → List String × Except String Unit :=
  fun h =>
    match h with
    | HandlerChoice.edited => (["databases.query"], Except.ok ())
    | _ => ([], Except.ok ())

/-! ## Helper lemmas -/

theorem foldl_push_filter {α : Type} (p : α → Bool) (l : List α) :
    ∀ acc : List α,
      l.foldl (fun a i => if p i then a else a ++ [i]) acc = acc ++ l.filter (fun i => !(p i)) := by
  induction l with
  | nil => intro acc; simp
  | cons i l ih =>
    intro acc
    simp only [List.foldl_cons, List.filter_cons]
    cases hp : p i
    · simp only [hp, Bool.false_eq_true, if_false, Bool.not_false, if_true, ih (acc ++ [i])]
      simp
    · simp only [hp, if_true, Bool.not_true, Bool.false_eq_true, if_false, ih acc]

theorem getIssuesNotInNotion_eq_filter (m : IssueMap) (issues : List Issue) :
    getIssuesNotInNotion m issues =
      issues.filter (fun i => !(mapHas m (some i.number))) := by
  unfold getIssuesNotInNotion
  simpa using foldl_push_filter (fun i => mapHas m (some i.number)) issues []

theorem createRequests_map_attempt (attempt : Issue → Except String Unit) :
    ∀ pages : List Issue,
      createRequests (pages.map (attemptEv attempt)) = pages.map Issue.number := by
  intro pages
  induction pages with
  | nil => rfl
  | cons i ps ih =>
    simp only [List.map_cons, createRequests, List.filterMap_cons] at *
    cases h : attempt i <;> simp [attemptEv, h, ih]

theorem createRequests_append (a b : List SyncEv) :
    createRequests (a ++ b) = createRequests a ++ createRequests b := by
  simp [createRequests, List.filterMap_append]

theorem createRequests_trace (attempt : Issue → Except String Unit) (pages : List Issue) :
    createRequests (createPagesTrace attempt pages) = pages.map Issue.number := by
  cases pages with
  | nil => rfl
  | cons i ps =>
    unfold createPagesTrace
    rw [if_neg (by simp), createRequests_append, createRequests_map_attempt]
    cases h : failuresOf attempt (i :: ps) <;> simp [createRequests]

theorem toList_mk (l : List Char) : (String.mk l).toList = l := rfl

theorem stripTagsF_id (l : List Char) : ∀ fuel : Nat, '<' ∉ l → l.length ≤ fuel →
    stripTagsF fuel l = l := by
  induction l with
  | nil => intro fuel _ _; cases fuel <;> rfl
  | cons c cs ih =>
    intro fuel hmem hlen
    cases fuel with
    | zero => simp [List.length_cons] at hlen
    | succ f =>
      have hc : ¬(c = '<') := fun h => hmem (h ▸ List.mem_cons_self c cs)
      have hm : '<' ∉ cs := fun h => hmem (List.mem_cons_of_mem c h)
      have hl : cs.length ≤ f := by
        simp [List.length_cons] at hlen
        omega
      simp only [stripTagsF, if_neg hc]
      rw [ih f hm hl]

theorem collapseNLF_id (l : List Char) : ∀ fuel : Nat, '\n' ∉ l → l.length ≤ fuel →
    collapseNLF fuel l = l := by
  induction l with
  | nil => intro fuel _ _; cases fuel <;> rfl
  | cons c cs ih =>
    intro fuel hmem hlen
    cases fuel with
    | zero => simp [List.length_cons] at hlen
    | succ f =>
      have hc : ¬(c = '\n') := fun h => hmem (h ▸ List.mem_cons_self c cs)
      have hm : '\n' ∉ cs := fun h => hmem (List.mem_cons_of_mem c h)
      have hl : cs.length ≤ f := by
        simp [List.length_cons] at hlen
        omega
      simp only [collapseNLF, if_neg hc]
      rw [ih f hm hl]

theorem stripCommentsF_id (l : List Char) : ∀ fuel : Nat, '<' ∉ l → l.length ≤ fuel →
    stripCommentsF fuel l = l := by
  induction l with
  | nil => intro fuel _ _; cases fuel <;> rfl
  | cons c cs ih =>
    intro fuel hmem hlen
    cases fuel with
    | zero => simp [List.length_cons] at hlen
    | succ f =>
      have hc : ¬(c = '<') := fun h => hmem (h ▸ List.mem_cons_self c cs)
      have hm : '<' ∉ cs := fun h => hmem (List.mem_cons_of_mem c h)
      have hl : cs.length ≤ f := by
        simp [List.length_cons] at hlen
        omega
      simp only [stripCommentsF, if_neg hc]
      rw [ih f hm hl]

theorem imageRewriteF_id (l : List Char) : ∀ fuel : Nat, '!' ∉ l → l.length ≤ fuel →
    imageRewriteF fuel l = l := by
  induction l with
  | nil => intro fuel _ _; cases fuel <;> rfl
  | cons c cs ih =>
    intro fuel hmem hlen
    cases fuel with
    | zero => simp [List.length_cons] at hlen
    | succ f =>
      have hc : ¬(c = '!' ∧ bracketOpen cs = true) :=
        fun h => hmem (h.1 ▸ List.mem_cons_self c cs)
      have hm : '!' ∉ cs := fun h => hmem (List.mem_cons_of_mem c h)
      have hl : cs.length ≤ f := by
        simp [List.length_cons] at hlen
        omega
      simp only [imageRewriteF, if_neg hc]
      rw [ih f hm hl]

theorem trimChars_id (l : List Char)
    (h1 : ∀ c, l.head? = some c → isSpace c = false)
    (h2 : ∀ c, l.reverse.head? = some c → isSpace c = false) :
    trimChars l = l := by
  have hdrop : ∀ m : List Char, (∀ c, m.head? = some c → isSpace c = false) →
      m.dropWhile isSpace = m := by
    intro m hm
    cases m with
    | nil => rfl
    | cons a as =>
      rw [List.dropWhile_cons, if_neg (by simp [hm a rfl])]
  unfold trimChars
  rw [hdrop l h1, hdrop l.reverse h2, List.reverse_reverse]

theorem takeWhile_eq_self_of (p : Char → Bool) :
    ∀ l : List Char, (∀ x ∈ l, p x = true) → l.takeWhile p = l := by
  intro l
  induction l with
  | nil => intro _; rfl
  | cons a as ih =>
    intro h
    rw [List.takeWhile_cons, if_pos (h a (List.mem_cons_self a as))]
    rw [ih (fun x hx => h x (List.mem_cons_of_mem a hx))]

theorem dropWhile_eq_nil_of (p : Char → Bool) :
    ∀ l : List Char, (∀ x ∈ l, p x = true) → l.dropWhile p = [] := by
  intro l
  induction l with
  | nil => intro _; rfl
  | cons a as ih =>
    intro h
    rw [List.dropWhile_cons, if_pos (h a (List.mem_cons_self a as))]
    exact ih (fun x hx => h x (List.mem_cons_of_mem a hx))

theorem dropWhile_hash (t : List Char) :
    ∀ k : Nat, List.dropWhile (fun x => x == '#') (List.replicate k '#' ++ ' ' :: t) =
      ' ' :: t := by
  intro k
  induction k with
  | zero => simp [List.dropWhile_cons]
  | succ k ih =>
    rw [List.replicate_succ, List.cons_append, List.dropWhile_cons, if_pos (by rfl)]
    exact ih

theorem headingRewriteF_nil (f : Nat) (b : Bool) : headingRewriteF f b [] = [] := by
  cases f <;> rfl

theorem martianSpansF_nil (f : Nat) : martianSpansF f [] = [] := by
  cases f <;> rfl

theorem headingRewriteF_cons (fuel : Nat) (atStart : Bool) (c : Char) (cs : List Char) :
    headingRewriteF (fuel + 1) atStart (c :: cs) =
      if atStart = true ∧ c = '#' then
        if ((c :: cs).dropWhile (fun x => x == '#')).takeWhile isSpace = [] then
          c :: headingRewriteF fuel false cs
        else if ((c :: cs).dropWhile (fun x => x == '#')).dropWhile isSpace = [] then
          match trailingPick (((c :: cs).dropWhile (fun x => x == '#')).takeWhile isSpace) with
          | some (ch, rem) => '*' :: '*' :: ch :: '*' :: '*' :: headingRewriteF fuel false rem
          | none => c :: headingRewriteF fuel false cs
        else
          '*' :: '*' ::
            ((((c :: cs).dropWhile (fun x => x == '#')).dropWhile isSpace).takeWhile
                (fun x => !(x == '\n')) ++
              '*' :: '*' :: headingRewriteF fuel false
                ((((c :: cs).dropWhile (fun x => x == '#')).dropWhile isSpace).dropWhile
                  (fun x => !(x == '\n'))))
      else c :: headingRewriteF fuel (c == '\n') cs := rfl

theorem headingRewriteF_heading (f k : Nat) (t : List Char) (hk : 0 < k) (hne : t ≠ [])
    (hnl : '\n' ∉ t) (hhead : ∀ a, t.head? = some a → isSpace a = false) :
    headingRewriteF (f + 1) true (List.replicate k '#' ++ ' ' :: t) =
      '*' :: '*' :: (t ++ ['*', '*']) := by
  obtain ⟨k', rfl⟩ : ∃ k', k = k' + 1 := ⟨k - 1, by omega⟩
  obtain ⟨a, t', rfl⟩ : ∃ a t', t = a :: t' := by
    cases t with
    | nil => exact absurd rfl hne
    | cons a t' => exact ⟨a, t', rfl⟩
  have ha : isSpace a = false := hhead a rfl
  have hdropHash :
      List.dropWhile (fun x => x == '#')
        ('#' :: (List.replicate k' '#' ++ ' ' :: a :: t')) = ' ' :: a :: t' := by
    have := dropWhile_hash (a :: t') (k' + 1)
    rwa [List.replicate_succ, List.cons_append] at this
  have hrun : List.takeWhile isSpace (' ' :: a :: t') = [' '] := by
    rw [List.takeWhile_cons, if_pos (by rfl), List.takeWhile_cons, if_neg (by simp [ha])]
  have htail : List.dropWhile isSpace (' ' :: a :: t') = a :: t' := by
    rw [List.dropWhile_cons, if_pos (by rfl), List.dropWhile_cons, if_neg (by simp [ha])]
  have hcap : List.takeWhile (fun x => !(x == '\n')) (a :: t') = a :: t' := by
    refine takeWhile_eq_self_of _ _ (fun x hx => ?_)
    have hx2 : x ≠ '\n' := fun h => hnl (h ▸ hx)
    simp [hx2]
  have hrem : List.dropWhile (fun x => !(x == '\n')) (a :: t') = [] := by
    refine dropWhile_eq_nil_of _ _ (fun x hx => ?_)
    have hx2 : x ≠ '\n' := fun h => hnl (h ▸ hx)
    simp [hx2]
  rw [List.replicate_succ, List.cons_append, headingRewriteF_cons,
    if_pos (show true = true ∧ '#' = '#' from ⟨rfl, rfl⟩), hdropHash, hrun, htail,
    if_neg (by simp), if_neg hne, hcap, hrem, headingRewriteF_nil]

theorem splitAtMark2_cons (m c : Char) (cs : List Char) :
    splitAtMark2 m (c :: cs) =
      if c = m ∧ headIs m cs = true then some ([], cs.drop 1)
      else
        match splitAtMark2 m cs with
        | some (a, b) => some (c :: a, b)
        | none => none := rfl

theorem splitAtMark2_append (m : Char) (b : List Char) :
    ∀ t : List Char, m ∉ t → splitAtMark2 m (t ++ m :: m :: b) = some (t, b) := by
  intro t
  induction t with
  | nil =>
    intro _
    rw [List.nil_append, splitAtMark2_cons,
      if_pos (show m = m ∧ headIs m (m :: b) = true from ⟨rfl, by simp [headIs]⟩)]
    rfl
  | cons a t' ih =>
    intro hmem
    have ha : ¬(a = m) := fun h => hmem (h ▸ List.mem_cons_self a t')
    rw [List.cons_append, splitAtMark2_cons, if_neg (fun h => ha h.1),
      ih (fun h => hmem (List.mem_cons_of_mem a h))]

theorem martianSpansF_boldArm (fuel : Nat) (cs : List Char) :
    martianSpansF (fuel + 1) ('*' :: '*' :: cs) =
      match splitAtMark2 '*' cs with
      | some (inner, rest) => boldSpan (String.mk inner) :: martianSpansF fuel rest
      | none => [plainSpan (String.mk ('*' :: '*' :: cs))] := rfl

theorem martianSpansF_nlArm (fuel : Nat) (cs : List Char) :
    martianSpansF (fuel + 1) ('\n' :: cs) =
      plainSpan (String.mk ('\n' :: cs.takeWhile (fun x => !(isMarkerChar x)))) ::
        martianSpansF fuel (cs.dropWhile (fun x => !(isMarkerChar x))) := rfl

theorem martianSpansF_bold (f : Nat) (t : List Char) (hmem : '*' ∉ t) :
    martianSpansF (f + 1) ('*' :: '*' :: (t ++ ['*', '*'])) = [boldSpan (String.mk t)] := by
  rw [martianSpansF_boldArm, splitAtMark2_append '*' [] t hmem]
  show boldSpan (String.mk t) :: martianSpansF f [] = [boldSpan (String.mk t)]
  rw [martianSpansF_nil]

theorem martianSpansF_bold_sep (f : Nat) (t r : List Char) (hmem : '*' ∉ t) :
    martianSpansF (f + 1) ('*' :: '*' :: (t ++ '*' :: '*' :: ('\n' :: r))) =
      boldSpan (String.mk t) :: martianSpansF f ('\n' :: r) := by
  rw [martianSpansF_boldArm, splitAtMark2_append '*' ('\n' :: r) t hmem]

theorem takeWhile_until_nl (r : List Char) :
    ∀ t : List Char, '\n' ∉ t →
      (t ++ '\n' :: r).takeWhile (fun x => !(x == '\n')) = t := by
  intro t
  induction t with
  | nil =>
    intro _
    rw [List.nil_append, List.takeWhile_cons, if_neg (by simp)]
  | cons a t' ih =>
    intro hmem
    have ha : a ≠ '\n' := fun h => hmem (h ▸ List.mem_cons_self a t')
    rw [List.cons_append, List.takeWhile_cons, if_pos (by simp [ha]),
      ih (fun h => hmem (List.mem_cons_of_mem a h))]

theorem dropWhile_until_nl (r : List Char) :
    ∀ t : List Char, '\n' ∉ t →
      (t ++ '\n' :: r).dropWhile (fun x => !(x == '\n')) = '\n' :: r := by
  intro t
  induction t with
  | nil =>
    intro _
    rw [List.nil_append, List.dropWhile_cons, if_neg (by simp)]
  | cons a t' ih =>
    intro hmem
    have ha : a ≠ '\n' := fun h => hmem (h ▸ List.mem_cons_self a t')
    rw [List.cons_append, List.dropWhile_cons, if_pos (by simp [ha]),
      ih (fun h => hmem (List.mem_cons_of_mem a h))]

theorem headingRewriteF_headline (f k : Nat) (t r : List Char) (hk : 0 < k) (hne : t ≠ [])
    (hnl : '\n' ∉ t) (hhead : ∀ a, t.head? = some a → isSpace a = false) :
    headingRewriteF (f + 1) true (List.replicate k '#' ++ ' ' :: (t ++ '\n' :: r)) =
      '*' :: '*' :: (t ++ '*' :: '*' :: headingRewriteF f false ('\n' :: r)) := by
  obtain ⟨k', rfl⟩ : ∃ k', k = k' + 1 := ⟨k - 1, by omega⟩
  have hdropHash :
      List.dropWhile (fun x => x == '#')
        ('#' :: (List.replicate k' '#' ++ ' ' :: (t ++ '\n' :: r))) = ' ' :: (t ++ '\n' :: r) := by
    have := dropWhile_hash (t ++ '\n' :: r) (k' + 1)
    rwa [List.replicate_succ, List.cons_append] at this
  have hrun : List.takeWhile isSpace (' ' :: (t ++ '\n' :: r)) = [' '] := by
    obtain ⟨a, t', rfl⟩ : ∃ a t', t = a :: t' := by
      cases t with
      | nil => exact absurd rfl hne
      | cons a t' => exact ⟨a, t', rfl⟩
    have ha : isSpace a = false := hhead a rfl
    rw [List.cons_append, List.takeWhile_cons, if_pos (by rfl), List.takeWhile_cons,
      if_neg (by simp [ha])]
  have htail : List.dropWhile isSpace (' ' :: (t ++ '\n' :: r)) = t ++ '\n' :: r := by
    obtain ⟨a, t', rfl⟩ : ∃ a t', t = a :: t' := by
      cases t with
      | nil => exact absurd rfl hne
      | cons a t' => exact ⟨a, t', rfl⟩
    have ha : isSpace a = false := hhead a rfl
    rw [List.cons_append, List.dropWhile_cons, if_pos (by rfl), List.dropWhile_cons,
      if_neg (by simp [ha])]
  rw [List.replicate_succ, List.cons_append, headingRewriteF_cons,
    if_pos (show true = true ∧ '#' = '#' from ⟨rfl, rfl⟩), hdropHash, hrun, htail,
    if_neg (by simp), if_neg (by simp), takeWhile_until_nl r t hnl, dropWhile_until_nl r t hnl]

theorem headingRewriteF_nl (f : Nat) (r : List Char) :
    headingRewriteF (f + 1) false ('\n' :: r) = '\n' :: headingRewriteF f true r := by
  rw [headingRewriteF_cons, if_neg (fun h => Bool.false_ne_true h.1)]
  rfl

theorem collapseNLF_cons (fuel : Nat) (c : Char) (cs : List Char) :
    collapseNLF (fuel + 1) (c :: cs) =
      if c = '\n' then
        match lastNLsplit cs with
        | some rest => '\n' :: collapseNLF fuel rest
        | none => c :: collapseNLF fuel cs
      else c :: collapseNLF fuel cs := rfl

theorem lastNLsplit_nonspace (d : Char) (ds : List Char) (hd : isSpace d = false) :
    lastNLsplit (d :: ds) = none := by
  unfold lastNLsplit
  rw [if_neg (by simp [hd])]

theorem collapseNLF_segment (rest : List Char) :
    ∀ (seg : List Char) (fuel : Nat), '\n' ∉ seg → (seg ++ rest).length ≤ fuel →
      collapseNLF fuel (seg ++ rest) = seg ++ collapseNLF (fuel - seg.length) rest := by
  intro seg
  induction seg with
  | nil => intro fuel _ _; simp
  | cons c seg' ih =>
    intro fuel hmem hlen
    cases fuel with
    | zero => simp [List.length_cons] at hlen
    | succ f =>
      have hc : ¬(c = '\n') := fun h => hmem (h ▸ List.mem_cons_self c seg')
      have harith : f + 1 - (c :: seg').length = f - seg'.length := by
        simp [List.length_cons]
      rw [List.cons_append, collapseNLF_cons, if_neg hc,
        ih f (fun h => hmem (List.mem_cons_of_mem c h))
          (by simp [List.length_append, List.length_cons] at hlen ⊢; omega),
        harith, List.cons_append]

theorem head_all_nonspace {l : List Char} (h : l.head?.all (fun c => !(isSpace c)) = true) :
    ∀ a, l.head? = some a → isSpace a = false := by
  intro a ha
  rw [ha] at h
  simpa [Option.all] using h

theorem headingLines_single (p : Nat × List Char) :
    headingLines [p] = List.replicate p.1 '#' ++ ' ' :: p.2 := rfl

theorem headingLines_cons2 (p q : Nat × List Char) (rest : List (Nat × List Char)) :
    headingLines (p :: q :: rest) =
      (List.replicate p.1 '#' ++ ' ' :: p.2) ++ '\n' :: headingLines (q :: rest) := rfl

theorem boldLines_single (p : Nat × List Char) :
    boldLines [p] = '*' :: '*' :: (p.2 ++ ['*', '*']) := rfl

theorem boldLines_cons2 (p q : Nat × List Char) (rest : List (Nat × List Char)) :
    boldLines (p :: q :: rest) =
      ('*' :: '*' :: (p.2 ++ ['*', '*'])) ++ '\n' :: boldLines (q :: rest) := rfl

theorem headingSpans_single (p : Nat × List Char) :
    headingSpans [p] = [boldSpan (String.mk p.2)] := rfl

theorem headingSpans_cons2 (p q : Nat × List Char) (rest : List (Nat × List Char)) :
    headingSpans (p :: q :: rest) =
      boldSpan (String.mk p.2) :: plainSpan "\n" :: headingSpans (q :: rest) := rfl

theorem headingLines_head : ∀ hs : List (Nat × List Char), (∀ p ∈ hs, ValidHeading p) →
    hs ≠ [] → ∃ l', headingLines hs = '#' :: l' := by
  intro hs hval hne
  cases hs with
  | nil => exact absurd rfl hne
  | cons p rest =>
    obtain ⟨hk, _, _, _, _⟩ := hval p (List.mem_cons_self p rest)
    obtain ⟨k', hk'⟩ : ∃ k', p.1 = k' + 1 := ⟨p.1 - 1, by omega⟩
    cases rest with
    | nil =>
      refine ⟨List.replicate k' '#' ++ ' ' :: p.2, ?_⟩
      rw [headingLines_single, hk', List.replicate_succ, List.cons_append]
    | cons q rest2 =>
      refine ⟨(List.replicate k' '#' ++ ' ' :: p.2) ++ '\n' :: headingLines (q :: rest2), ?_⟩
      rw [headingLines_cons2, hk', List.replicate_succ, List.cons_append, List.cons_append]

theorem headingLines_mem : ∀ (hs : List (Nat × List Char)) (x : Char), x ∈ headingLines hs →
    x = '#' ∨ x = ' ' ∨ x = '\n' ∨ ∃ p ∈ hs, x ∈ p.2 := by
  intro hs
  induction hs with
  | nil => intro x hx; exact absurd hx (by simp [headingLines])
  | cons p rest ih =>
    intro x hx
    cases rest with
    | nil =>
      rw [headingLines_single] at hx
      rcases List.mem_append.mp hx with h | h
      · exact Or.inl (List.eq_of_mem_replicate h)
      · rcases List.mem_cons.mp h with h | h
        · exact Or.inr (Or.inl h)
        · exact Or.inr (Or.inr (Or.inr ⟨p, List.mem_cons_self p [], h⟩))
    | cons q rest2 =>
      rw [headingLines_cons2] at hx
      rcases List.mem_append.mp hx with h | h
      · rcases List.mem_append.mp h with h2 | h2
        · exact Or.inl (List.eq_of_mem_replicate h2)
        · rcases List.mem_cons.mp h2 with h3 | h3
          · exact Or.inr (Or.inl h3)
          · exact Or.inr (Or.inr (Or.inr ⟨p, List.mem_cons_self p _, h3⟩))
      · rcases List.mem_cons.mp h with h2 | h2
        · exact Or.inr (Or.inr (Or.inl h2))
        · rcases ih x h2 with h3 | h3 | h3 | ⟨p2, hp2, hx2⟩
          · exact Or.inl h3
          · exact Or.inr (Or.inl h3)
          · exact Or.inr (Or.inr (Or.inl h3))
          · exact Or.inr (Or.inr (Or.inr ⟨p2, List.mem_cons_of_mem p hp2, hx2⟩))

theorem boldLines_mem : ∀ (hs : List (Nat × List Char)) (x : Char), x ∈ boldLines hs →
    x = '*' ∨ x = '\n' ∨ ∃ p ∈ hs, x ∈ p.2 := by
  intro hs
  induction hs with
  | nil => intro x hx; exact absurd hx (by simp [boldLines])
  | cons p rest ih =>
    intro x hx
    cases rest with
    | nil =>
      rw [boldLines_single] at hx
      rcases List.mem_cons.mp hx with h | hx
      · exact Or.inl h
      rcases List.mem_cons.mp hx with h | hx
      · exact Or.inl h
      rcases List.mem_append.mp hx with h | h
      · exact Or.inr (Or.inr ⟨p, List.mem_cons_self p [], h⟩)
      · rcases List.mem_cons.mp h with h2 | h2
        · exact Or.inl h2
        · rcases List.mem_cons.mp h2 with h3 | h3
          · exact Or.inl h3
          · exact absurd h3 (by simp)
    | cons q rest2 =>
      rw [boldLines_cons2] at hx
      rcases List.mem_append.mp hx with h | h
      · rcases List.mem_cons.mp h with h2 | h
        · exact Or.inl h2
        rcases List.mem_cons.mp h with h2 | h
        · exact Or.inl h2
        rcases List.mem_append.mp h with h2 | h2
        · exact Or.inr (Or.inr ⟨p, List.mem_cons_self p _, h2⟩)
        · rcases List.mem_cons.mp h2 with h3 | h3
          · exact Or.inl h3
          · rcases List.mem_cons.mp h3 with h4 | h4
            · exact Or.inl h4
            · exact absurd h4 (by simp)
      · rcases List.mem_cons.mp h with h2 | h2
        · exact Or.inr (Or.inl h2)
        · rcases ih x h2 with h3 | h3 | ⟨p2, hp2, hx2⟩
          · exact Or.inl h3
          · exact Or.inr (Or.inl h3)
          · exact Or.inr (Or.inr ⟨p2, List.mem_cons_of_mem p hp2, hx2⟩)

theorem boldLines_head : ∀ hs : List (Nat × List Char), hs ≠ [] →
    ∃ l', boldLines hs = '*' :: l' := by
  intro hs hne
  cases hs with
  | nil => exact absurd rfl hne
  | cons p rest =>
    cases rest with
    | nil => exact ⟨'*' :: (p.2 ++ ['*', '*']), rfl⟩
    | cons q rest2 =>
      refine ⟨('*' :: (p.2 ++ ['*', '*'])) ++ '\n' :: boldLines (q :: rest2), ?_⟩
      rw [boldLines_cons2, List.cons_append]

theorem headingLines_length_bound : ∀ hs : List (Nat × List Char),
    (∀ p ∈ hs, ValidHeading p) → 2 * hs.length ≤ (headingLines hs).length + 1 := by
  intro hs
  induction hs with
  | nil => intro _; simp [headingLines]
  | cons p rest ih =>
    intro hval
    obtain ⟨hk, hne_t, _, _, _⟩ := hval p (List.mem_cons_self p rest)
    have ht : 0 < p.2.length := List.length_pos.mpr hne_t
    cases rest with
    | nil =>
      rw [headingLines_single]
      simp only [List.length_cons, List.length_append, List.length_replicate, List.length_nil]
      omega
    | cons q rest2 =>
      have hrest := ih (fun p2 hp2 => hval p2 (List.mem_cons_of_mem p hp2))
      rw [headingLines_cons2]
      simp only [List.length_cons, List.length_append, List.length_replicate,
        List.length_nil] at hrest ⊢
      omega

theorem boldLines_length_bound : ∀ hs : List (Nat × List Char),
    2 * hs.length ≤ (boldLines hs).length + 1 := by
  intro hs
  induction hs with
  | nil => simp [boldLines]
  | cons p rest ih =>
    cases rest with
    | nil =>
      rw [boldLines_single]
      simp only [List.length_cons, List.length_append, List.length_nil]
      omega
    | cons q rest2 =>
      rw [boldLines_cons2]
      simp only [List.length_cons, List.length_append, List.length_nil] at ih ⊢
      omega

theorem collapseNLF_headingLines : ∀ (hs : List (Nat × List Char)) (fuel : Nat),
    (∀ p ∈ hs, ValidHeading p) → (headingLines hs).length ≤ fuel →
    collapseNLF fuel (headingLines hs) = headingLines hs := by
  intro hs
  induction hs with
  | nil => intro fuel _ _; cases fuel <;> rfl
  | cons p rest ih =>
    intro fuel hval hlen
    obtain ⟨hk, hne_t, hchars, _, _⟩ := hval p (List.mem_cons_self p rest)
    have hnl_line : '\n' ∉ List.replicate p.1 '#' ++ ' ' :: p.2 := by
      intro hx
      rcases List.mem_append.mp hx with h | h
      · exact absurd (List.eq_of_mem_replicate h) (by decide)
      · rcases List.mem_cons.mp h with h | h
        · exact absurd h (by decide)
        · exact (hchars '\n' h).2.2.2.2.1 rfl
    cases rest with
    | nil =>
      rw [headingLines_single] at hlen ⊢
      exact collapseNLF_id _ fuel hnl_line hlen
    | cons q rest2 =>
      rw [headingLines_cons2] at hlen ⊢
      rw [collapseNLF_segment _ _ _ hnl_line hlen]
      obtain ⟨f, hf⟩ :
          ∃ f, fuel - (List.replicate p.1 '#' ++ ' ' :: p.2).length = f + 1 := by
        refine ⟨fuel - (List.replicate p.1 '#' ++ ' ' :: p.2).length - 1, ?_⟩
        simp only [List.length_append, List.length_cons] at hlen ⊢
        omega
      obtain ⟨l', hl'⟩ := headingLines_head (q :: rest2)
        (fun p2 hp2 => hval p2 (List.mem_cons_of_mem p hp2)) (by simp)
      have hnone : lastNLsplit (headingLines (q :: rest2)) = none := by
        rw [hl']
        exact lastNLsplit_nonspace '#' l' rfl
      rw [hf, collapseNLF_cons, if_pos rfl, hnone,
        ih f (fun p2 hp2 => hval p2 (List.mem_cons_of_mem p hp2))
          (by simp only [List.length_append, List.length_cons] at hlen hf ⊢; omega)]

theorem headingLines_last : ∀ hs : List (Nat × List Char), (∀ p ∈ hs, ValidHeading p) →
    hs ≠ [] → ∀ c, (headingLines hs).reverse.head? = some c → isSpace c = false := by
  intro hs
  induction hs with
  | nil => intro _ h; exact absurd rfl h
  | cons p rest ih =>
    intro hval _ c hc
    obtain ⟨_, hne_t, _, _, hlastB⟩ := hval p (List.mem_cons_self p rest)
    cases rest with
    | nil =>
      rw [headingLines_single] at hc
      obtain ⟨b, bs, hb⟩ : ∃ b bs, p.2.reverse = b :: bs := by
        cases hr : p.2.reverse with
        | nil => exact absurd (List.reverse_eq_nil_iff.mp hr) hne_t
        | cons b bs => exact ⟨b, bs, rfl⟩
      rw [List.reverse_append, List.reverse_cons, hb, List.cons_append, List.cons_append,
        List.head?_cons, Option.some.injEq] at hc
      rw [hb, List.head?_cons] at hlastB
      have hsb : isSpace b = false := by simpa [Option.all] using hlastB
      rw [← hc]
      exact hsb
    | cons q rest2 =>
      rw [headingLines_cons2] at hc
      obtain ⟨l', hl'⟩ := headingLines_head (q :: rest2)
        (fun p2 hp2 => hval p2 (List.mem_cons_of_mem p hp2)) (by simp)
      obtain ⟨b, bs, hb⟩ : ∃ b bs, (headingLines (q :: rest2)).reverse = b :: bs := by
        cases hr : (headingLines (q :: rest2)).reverse with
        | nil =>
          exact absurd (List.reverse_eq_nil_iff.mp hr) (by rw [hl']; simp)
        | cons b bs => exact ⟨b, bs, rfl⟩
      rw [List.reverse_append, List.reverse_cons, hb, List.cons_append, List.cons_append,
        List.head?_cons, Option.some.injEq] at hc
      refine ih (fun p2 hp2 => hval p2 (List.mem_cons_of_mem p hp2)) (by simp) c ?_
      rw [hb, List.head?_cons, hc]

theorem headingRewriteF_lines : ∀ (hs : List (Nat × List Char)) (fuel : Nat),
    (∀ p ∈ hs, ValidHeading p) → hs ≠ [] → 2 * hs.length ≤ fuel + 1 →
    headingRewriteF fuel true (headingLines hs) = boldLines hs := by
  intro hs
  induction hs with
  | nil => intro fuel _ hne _; exact absurd rfl hne
  | cons p rest ih =>
    intro fuel hval _ hfuel
    obtain ⟨hk, hne_t, hchars, hheadB, _⟩ := hval p (List.mem_cons_self p rest)
    have hnl_t : '\n' ∉ p.2 := fun h => (hchars '\n' h).2.2.2.2.1 rfl
    have hhead_t := head_all_nonspace hheadB
    cases rest with
    | nil =>
      obtain ⟨f, rfl⟩ : ∃ f, fuel = f + 1 := ⟨fuel - 1, by simp at hfuel; omega⟩
      rw [headingLines_single, boldLines_single]
      exact headingRewriteF_heading f p.1 p.2 hk hne_t hnl_t hhead_t
    | cons q rest2 =>
      obtain ⟨f', rfl⟩ : ∃ f', fuel = (f' + 1) + 1 := by
        refine ⟨fuel - 2, ?_⟩
        simp [List.length_cons] at hfuel
        omega
      rw [headingLines_cons2, boldLines_cons2, List.append_assoc, List.cons_append,
        headingRewriteF_headline (f' + 1) p.1 p.2 (headingLines (q :: rest2)) hk hne_t hnl_t
          hhead_t,
        headingRewriteF_nl f' (headingLines (q :: rest2)),
        ih f' (fun p2 hp2 => hval p2 (List.mem_cons_of_mem p hp2)) (by simp)
          (by simp [List.length_cons] at hfuel ⊢; omega)]
      simp [List.cons_append, List.append_assoc]

theorem martianSpansF_lines : ∀ (hs : List (Nat × List Char)) (fuel : Nat),
    (∀ p ∈ hs, ValidHeading p) → hs ≠ [] → 2 * hs.length ≤ fuel + 1 →
    martianSpansF fuel (boldLines hs) = headingSpans hs := by
  intro hs
  induction hs with
  | nil => intro fuel _ hne _; exact absurd rfl hne
  | cons p rest ih =>
    intro fuel hval _ hfuel
    obtain ⟨_, _, hchars, _, _⟩ := hval p (List.mem_cons_self p rest)
    have hstar : '*' ∉ p.2 := fun h => (hchars '*' h).2.1 rfl
    cases rest with
    | nil =>
      obtain ⟨f, rfl⟩ : ∃ f, fuel = f + 1 := ⟨fuel - 1, by simp at hfuel; omega⟩
      rw [boldLines_single, headingSpans_single]
      exact martianSpansF_bold f p.2 hstar
    | cons q rest2 =>
      obtain ⟨f', rfl⟩ : ∃ f', fuel = (f' + 1) + 1 := by
        refine ⟨fuel - 2, ?_⟩
        simp [List.length_cons] at hfuel
        omega
      rw [boldLines_cons2, headingSpans_cons2]
      have hshape : ('*' :: '*' :: (p.2 ++ ['*', '*'])) ++ '\n' :: boldLines (q :: rest2) =
          '*' :: '*' :: (p.2 ++ '*' :: '*' :: ('\n' :: boldLines (q :: rest2))) := by
        simp [List.cons_append, List.append_assoc]
      obtain ⟨b', hb'⟩ := boldLines_head (q :: rest2) (by simp)
      have htw : (boldLines (q :: rest2)).takeWhile (fun x => !(isMarkerChar x)) = [] := by
        rw [hb', List.takeWhile_cons, if_neg (by simp [isMarkerChar])]
      have hdw : (boldLines (q :: rest2)).dropWhile (fun x => !(isMarkerChar x)) =
          boldLines (q :: rest2) := by
        rw [hb', List.dropWhile_cons, if_neg (by simp [isMarkerChar])]
      rw [hshape, martianSpansF_bold_sep (f' + 1) p.2 (boldLines (q :: rest2)) hstar,
        martianSpansF_nlArm, htw, hdw,
        ih f' (fun p2 hp2 => hval p2 (List.mem_cons_of_mem p hp2)) (by simp)
          (by simp [List.length_cons] at hfuel ⊢; omega)]

theorem headingSpans_mem_bold : ∀ (hs : List (Nat × List Char)) (p : Nat × List Char),
    p ∈ hs → boldSpan (String.mk p.2) ∈ headingSpans hs := by
  intro hs
  induction hs with
  | nil => intro p hp; exact absurd hp (by simp)
  | cons p' rest ih =>
    intro p hp
    cases rest with
    | nil =>
      rcases List.mem_cons.mp hp with h | h
      · rw [h, headingSpans_single]
        exact List.mem_singleton.mpr rfl
      · exact absurd h (by simp)
    | cons q rest2 =>
      rcases List.mem_cons.mp hp with h | h
      · rw [h, headingSpans_cons2]
        exact List.mem_cons_self _ _
      · rw [headingSpans_cons2]
        exact List.mem_cons_of_mem _ (List.mem_cons_of_mem _ (ih p h))

theorem headingSpans_no_hash : ∀ hs : List (Nat × List Char), (∀ p ∈ hs, ValidHeading p) →
    ∀ sp ∈ headingSpans hs, '#' ∉ sp.content.toList := by
  intro hs
  induction hs with
  | nil => intro _ sp hsp; exact absurd hsp (by simp [headingSpans])
  | cons p rest ih =>
    intro hval sp hsp
    obtain ⟨_, _, hchars, _, _⟩ := hval p (List.mem_cons_self p rest)
    have hhash : '#' ∉ p.2 := fun h => (hchars '#' h).1 rfl
    cases rest with
    | nil =>
      rw [headingSpans_single, List.mem_singleton] at hsp
      subst hsp
      exact hhash
    | cons q rest2 =>
      rw [headingSpans_cons2] at hsp
      rcases List.mem_cons.mp hsp with h | hsp2
      · subst h
        exact hhash
      · rcases List.mem_cons.mp hsp2 with h | h2
        · subst h
          decide
        · exact ih (fun p2 hp2 => hval p2 (List.mem_cons_of_mem p hp2)) sp h2

/-! ## Claims -/

/-- Claim C1: for every mapping and every source issue list, the
reconciliation driver issues a create-entry request for exactly those
issues whose number is absent from the mapping — one request per such
issue, in source-listing order — and no request for any issue whose number
is present. -/
theorem c1_creates_exactly_missing (m : IssueMap) (issues : List Issue)
    (attempt : Issue → Except String Unit) :
    createRequests (syncNotionDBWithGitHubTrace m issues attempt) =
      (issues.filter (fun i => !(mapHas m (some i.number)))).map Issue.number := by
  unfold syncNotionDBWithGitHubTrace
  rw [createRequests_trace, getIssuesNotInNotion_eq_filter]

/-- Claim C2: in the creation fan-out, every attempt settles (one
settlement event per missing issue), and when at least one attempt failed
the error — carrying the first failure's detail — is raised strictly after
all settlement events. -/
theorem c2_settle_all_then_raise (attempt : Issue → Except String Unit)
    (pages : List Issue) (e : String) (tl : List String)
    (h : failuresOf attempt pages = e :: tl) :
    createPagesTrace attempt pages =
      pages.map (attemptEv attempt) ++
        [SyncEv.raised ("Failed to create pages in Notion: " ++ e)] ∧
    (pages.map (attemptEv attempt)).length = pages.length := by
  have hne : pages ≠ [] := by
    intro hp
    rw [hp] at h
    simp [failuresOf] at h
  refine ⟨?_, pages.length_map _⟩
  unfold createPagesTrace
  rw [if_neg (by simpa using hne), h]

/-- Witness for C2 at three concrete issues of which exactly the second
fails to create. -/
theorem c2_settle_all_then_raise_witness :
    createPagesTrace attemptSample pagesSample =
      pagesSample.map (attemptEv attemptSample) ++
        [SyncEv.raised ("Failed to create pages in Notion: " ++ "boom")] ∧
    (pagesSample.map (attemptEv attemptSample)).length = pagesSample.length :=
  c2_settle_all_then_raise attemptSample pagesSample "boom" [] rfl

/-- Claim C3: the content-block reconciliation plan pairs min(d, e)
positions index-for-index (existing id with desired block); the appended
blocks are exactly the tail of the desired list past the overlap (hence
max(0, d - e) of them, in order); the deleted ids are exactly the ids of
the tail of the existing list past the overlap (hence max(0, e - d) of
them); and the updated blocks followed by the appended blocks reproduce
the desired list exactly.  (`max(0, x - y)` over the integers is exactly
truncated subtraction `x - y` over `Nat`.) -/
theorem c3_reconcile_plan {α : Type} (desired : List α) (existing : List NotionBlock) :
    (reconcilePlan desired existing).toUpdate.length = min desired.length existing.length ∧
    (reconcilePlan desired existing).toUpdate.map Prod.fst =
      (existing.map NotionBlock.id).take (min desired.length existing.length) ∧
    (reconcilePlan desired existing).toUpdate.map Prod.snd =
      desired.take (min desired.length existing.length) ∧
    (reconcilePlan desired existing).toAppend =
      desired.drop (min desired.length existing.length) ∧
    (reconcilePlan desired existing).toAppend.length = desired.length - existing.length ∧
    (reconcilePlan desired existing).toDelete =
      (existing.drop (min desired.length existing.length)).map NotionBlock.id ∧
    (reconcilePlan desired existing).toDelete.length = existing.length - desired.length ∧
    (reconcilePlan desired existing).toUpdate.map Prod.snd ++
        (reconcilePlan desired existing).toAppend = desired := by
  have hk1 : min desired.length existing.length ≤ desired.length := Nat.min_le_left _ _
  have hk2 : min desired.length existing.length ≤ existing.length := Nat.min_le_right _ _
  have hlen1 : ((existing.take (min desired.length existing.length)).map NotionBlock.id).length
      = min desired.length existing.length := by
    rw [List.length_map, List.length_take]
    exact Nat.min_eq_left hk2
  have hlen2 : (desired.take (min desired.length existing.length)).length
      = min desired.length existing.length := by
    rw [List.length_take]
    exact Nat.min_eq_left hk1
  have hfst : (reconcilePlan desired existing).toUpdate.map Prod.fst =
      (existing.map NotionBlock.id).take (min desired.length existing.length) := by
    show (((existing.take _).map NotionBlock.id).zip (desired.take _)).map Prod.fst = _
    rw [List.map_fst_zip _ _ (by rw [hlen1, hlen2]), List.map_take]
  have hsnd : (reconcilePlan desired existing).toUpdate.map Prod.snd =
      desired.take (min desired.length existing.length) := by
    show (((existing.take _).map NotionBlock.id).zip (desired.take _)).map Prod.snd = _
    rw [List.map_snd_zip _ _ (by rw [hlen1, hlen2])]
  refine ⟨?_, hfst, hsnd, ?_, ?_, ?_, ?_, ?_⟩
  · show (((existing.take _).map NotionBlock.id).zip (desired.take _)).length = _
    rw [List.length_zip, hlen1, hlen2, Nat.min_self]
  · show (if existing.length < desired.length then desired.drop _ else []) = _
    by_cases hlt : existing.length < desired.length
    · rw [if_pos hlt]
    · rw [if_neg hlt, Nat.min_eq_left (Nat.not_lt.mp hlt), List.drop_length]
  · show (if existing.length < desired.length then desired.drop _ else []).length = _
    by_cases hlt : existing.length < desired.length
    · rw [if_pos hlt, List.length_drop]
      rw [Nat.min_eq_right (Nat.le_of_lt hlt)]
    · rw [if_neg hlt]
      have : desired.length ≤ existing.length := Nat.not_lt.mp hlt
      simp [Nat.sub_eq_zero_of_le this]
  · show (if desired.length < existing.length then
        (existing.drop _).map NotionBlock.id else []) = _
    by_cases hlt : desired.length < existing.length
    · rw [if_pos hlt]
    · rw [if_neg hlt, Nat.min_eq_right (Nat.not_lt.mp hlt), List.drop_length, List.map_nil]
  · show (if desired.length < existing.length then
        (existing.drop _).map NotionBlock.id else []).length = _
    by_cases hlt : desired.length < existing.length
    · rw [if_pos hlt, List.length_map, List.length_drop]
      rw [Nat.min_eq_left (Nat.le_of_lt hlt)]
    · rw [if_neg hlt]
      have : existing.length ≤ desired.length := Nat.not_lt.mp hlt
      simp [Nat.sub_eq_zero_of_le this]
  · rw [hsnd]
    show desired.take _ ++ (if existing.length < desired.length then desired.drop _ else []) = _
    by_cases hlt : existing.length < desired.length
    · rw [if_pos hlt, Nat.min_eq_right (Nat.le_of_lt hlt), List.take_append_drop]
    · rw [if_neg hlt, Nat.min_eq_left (Nat.not_lt.mp hlt), List.take_length, List.append_nil]

/-- Claim C4 (code-bug evaluation): on an edited event whose global issue
id matches no ledger entry, the handler does warn and create a replacement
page, but then the unconditional `const pageId = query.results[0].id`
(action.ts line 197) reads element 0 of the empty result list and the
handler throws instead of completing. -/
theorem c4_edited_not_found_throws :
    handleIssueEdited martianModel [] [] ⟨1001, 7, "hello"⟩ =
      ([EditEv.warnedNotFound 1001, EditEv.createdPage 1001],
        Except.error "TypeError: Cannot read properties of undefined (reading id)") := rfl

/-- Claim C5: whenever the structured markup parse throws, the converter
returns (never raises) a single plain-text span holding the tag-stripped
body truncated to 2000 units — the empty sequence when that text is empty —
and every returned span's content is at most 2000 units long. -/
theorem c5_fallback_total (md : String → Except String (List RichTextSpan)) (body : String)
    (err : String) (h : md (preprocessMarkdown (removeHTML body)) = Except.error err) :
    parseBodyRichText md body =
      (if (removeHTML body).length > 0 then [plainSpan (jsSubstring (removeHTML body) 2000)]
        else []) ∧
    ∀ sp ∈ parseBodyRichText md body, sp.content.toList.length ≤ 2000 := by
  have h1 : parseBodyRichText md body =
      (if (removeHTML body).length > 0 then [plainSpan (jsSubstring (removeHTML body) 2000)]
        else []) := by
    unfold parseBodyRichText
    rw [h]
  refine ⟨h1, ?_⟩
  rw [h1]
  by_cases hlen : (removeHTML body).length > 0
  · rw [if_pos hlen]
    intro sp hsp
    rw [List.mem_singleton] at hsp
    subst hsp
    show ((removeHTML body).toList.take 2000).length ≤ 2000
    rw [List.length_take]
    exact Nat.min_le_left _ _
  · rw [if_neg hlen]
    intro sp hsp
    simp at hsp

/-- Witness for C5 with an always-throwing parser oracle and a body whose
tag-stripped text is `hi`. -/
theorem c5_fallback_total_witness :
    parseBodyRichText mdFail "<p>hi</p>" =
      (if (removeHTML "<p>hi</p>").length > 0 then
        [plainSpan (jsSubstring (removeHTML "<p>hi</p>") 2000)]
        else []) ∧
    ∀ sp ∈ parseBodyRichText mdFail "<p>hi</p>", sp.content.toList.length ≤ 2000 :=
  c5_fallback_total mdFail "<p>hi</p>" "parse failure" rfl

/-- Claim C6 (code-bug evaluation): a retrieved entry whose `Number`
property holds the value `null` is not skipped — the `typeof num !==
'undefined'` guard (sync.ts line 359) is true for `null`, so the pair
`(null, pageId)` is pushed and inserted into the mapping; and an entry
whose properties lack the `Number` key makes the extraction throw a
TypeError instead of skipping it.  Only an entry whose `Number` property is
of a non-number type (value `undefined`) is silently skipped. -/
theorem c6_number_extraction_diverges :
    extractPageEntries [⟨"p1", true, NumberProp.nullVal⟩] = Except.ok [⟨"p1", none⟩] ∧
    createIssueMapping (fun _ => ([⟨"p1", true, NumberProp.nullVal⟩], none)) 1 =
      Except.ok [(none, "p1")] ∧
    extractPageEntries [⟨"p2", true, NumberProp.absent⟩] =
      Except.error "TypeError: Cannot read properties of undefined (reading number)" ∧
    extractPageEntries [⟨"p3", true, NumberProp.notNumberType⟩] = Except.ok [] :=
  ⟨rfl, rfl, rfl, rfl⟩

/-- Claim C8: against a fixed ledger (the same function from cursor to page
response, queried with the same request budget), two runs of the mapping
builder that return mappings return equal mappings — the same association
list, hence the same key set and the same entry id for every key. -/
theorem c8_mapping_builder_deterministic
    (ledger : Option String → List LedgerPage × Option String) (fuel : Nat)
    (m1 m2 : IssueMap)
    (h1 : createIssueMapping ledger fuel = Except.ok m1)
    (h2 : createIssueMapping ledger fuel = Except.ok m2) :
    m1 = m2 ∧ mapEquiv m1 m2 := by
  have h3 : Except.ok (ε := String) m1 = Except.ok m2 := h1.symm.trans h2
  cases h3
  exact ⟨rfl, fun k => rfl⟩

/-- Witness for C8 on a one-page ledger. -/
theorem c8_mapping_builder_deterministic_witness :
    ([(some 1, "p1")] : IssueMap) = [(some 1, "p1")] ∧
    mapEquiv [(some 1, "p1")] [(some 1, "p1")] :=
  c8_mapping_builder_deterministic ledgerSample 1 [(some 1, "p1")] [(some 1, "p1")] rfl rfl

/-- Claim C9: with a missing (empty) ledger database identifier, `run`
raises the configuration error with no network call issued — whatever the
handlers would have done. -/
theorem c9_config_error_before_network (o : RunOptions)
    (net : HandlerChoice → List String × Except String Unit) (h : o.databaseId = "") :
    run o net =
      ([], Except.error
        "Notion database ID is not configured. Please set the notion-db input parameter.") := by
  unfold run
  rw [if_pos h]

/-- Witness for C9: an empty database id with a handler that would issue a
create call. -/
theorem c9_config_error_before_network_witness :
    run ⟨"", some "opened", "issues"⟩ netSample =
      ([], Except.error
        "Notion database ID is not configured. Please set the notion-db input parameter.") :=
  c9_config_error_before_network ⟨"", some "opened", "issues"⟩ netSample rfl

/-- Claim C10: with a valid database id, any trigger whose payload action
is not `opened` and whose event name is not `workflow_dispatch` — e.g. an
issue closed or labeled event — is dispatched to the issue-edited
handler. -/
theorem c10_fallthrough_to_edited (o : RunOptions)
    (net : HandlerChoice → List String × Except String Unit)
    (h1 : o.payloadAction ≠ some "opened") (h2 : o.eventName ≠ "workflow_dispatch")
    (h3 : o.databaseId ≠ "") :
    run o net = net HandlerChoice.edited := by
  unfold run chooseHandler
  rw [if_neg h3, if_neg h1, if_neg h2]

/-- Claim C7 counterexample: the body consisting of a heading line and the
line `see #1` contains heading markup, yet the converter's output contains
a literal `'#'` — the non-heading `#1` passes through into a plain-text
span (the heading's own text does survive as a bold span). -/
theorem c7_counterexample_hash_survives :
    hasHeadingMarkup "## A\nsee #1" = true ∧
    ((parseBodyRichText martianModel "## A\nsee #1").any
      (fun sp => sp.content.toList.contains '#')) = true ∧
    boldSpan "A" ∈ parseBodyRichText martianModel "## A\nsee #1" := by
  refine ⟨by decide, by decide, by decide⟩

/-- Claim C7 as amended: for every body consisting of one or more heading
lines separated by single newlines — each line `k ≥ 1` heading markers, a
space, and nonempty heading text containing no markup character (`#`, `*`,
`<`, `!`, `_`, backtick, `~`, `[`), no newline, and neither leading nor
trailing whitespace — the converter's output is exactly the bold-emphasized
spans of the heading texts (with plain newline spans between consecutive
headings): every heading's text appears as a bold-emphasized span and no
span content contains a literal `#`.  (The original, unrestricted
claim fails because a `#` outside heading markup survives into a
plain-text span, as the counterexample shows.) -/
theorem c7_amended_headings_to_bold (hs : List (Nat × List Char)) (hne : hs ≠ [])
    (hval : ∀ p ∈ hs, ValidHeading p) :
    parseBodyRichText martianModel (String.mk (headingLines hs)) = headingSpans hs ∧
    (∀ p ∈ hs, boldSpan (String.mk p.2) ∈
      parseBodyRichText martianModel (String.mk (headingLines hs))) ∧
    ∀ sp ∈ parseBodyRichText martianModel (String.mk (headingLines hs)),
      '#' ∉ sp.content.toList := by
  have hlt : '<' ∉ headingLines hs := by
    intro hx
    rcases headingLines_mem hs '<' hx with h | h | h | ⟨p, hp, hx2⟩
    · exact absurd h (by decide)
    · exact absurd h (by decide)
    · exact absurd h (by decide)
    · exact (((hval p hp).2.2.1 '<' hx2).2.2.1) rfl
  have hbang : '!' ∉ boldLines hs := by
    intro hx
    rcases boldLines_mem hs '!' hx with h | h | ⟨p, hp, hx2⟩
    · exact absurd h (by decide)
    · exact absurd h (by decide)
    · exact (((hval p hp).2.2.1 '!' hx2).2.2.2.1) rfl
  have hlne : headingLines hs ≠ [] := by
    obtain ⟨l', hl'⟩ := headingLines_head hs hval hne
    rw [hl']
    simp
  have hbody_ne : String.mk (headingLines hs) ≠ "" := fun h => hlne (congrArg String.data h)
  have hhead_l : ∀ c, (headingLines hs).head? = some c → isSpace c = false := by
    obtain ⟨l', hl'⟩ := headingLines_head hs hval hne
    intro c hc
    rw [hl', List.head?_cons, Option.some.injEq] at hc
    rw [← hc]
    rfl
  have hA : removeHTML (String.mk (headingLines hs)) = String.mk (headingLines hs) := by
    unfold removeHTML
    rw [if_neg hbody_ne, toList_mk]
    unfold stripTags collapseNL
    rw [stripTagsF_id _ _ hlt (le_refl _),
      collapseNLF_headingLines hs _ hval (le_refl _),
      trimChars_id _ hhead_l (headingLines_last hs hval hne)]
  have hB : preprocessMarkdown (String.mk (headingLines hs)) = String.mk (boldLines hs) := by
    unfold preprocessMarkdown
    rw [toList_mk]
    unfold stripComments headingRewrite imageRewrite
    rw [stripCommentsF_id _ _ hlt (le_refl _),
      headingRewriteF_lines hs _ hval hne (headingLines_length_bound hs hval),
      imageRewriteF_id _ _ hbang (le_refl _)]
  have hC : parseBodyRichText martianModel (String.mk (headingLines hs)) = headingSpans hs := by
    unfold parseBodyRichText
    rw [hA, hB]
    unfold martianModel martianSpans
    rw [toList_mk, martianSpansF_lines hs _ hval hne (boldLines_length_bound hs)]
  refine ⟨hC, ?_, ?_⟩
  · intro p hp
    rw [hC]
    exact headingSpans_mem_bold hs p hp
  · intro sp hsp
    rw [hC] at hsp
    exact headingSpans_no_hash hs hval sp hsp

/-- Witness for the amended C7 at the two-heading body `# A\n# B`. -/
theorem c7_amended_headings_to_bold_witness :
    parseBodyRichText martianModel
      (String.mk (headingLines [(1, ['A']), (1, ['B'])])) =
      headingSpans [(1, ['A']), (1, ['B'])] ∧
    (∀ p ∈ [(1, ['A']), (1, ['B'])], boldSpan (String.mk p.2) ∈
      parseBodyRichText martianModel (String.mk (headingLines [(1, ['A']), (1, ['B'])]))) ∧
    ∀ sp ∈ parseBodyRichText martianModel
        (String.mk (headingLines [(1, ['A']), (1, ['B'])])),
      '#' ∉ sp.content.toList :=
  c7_amended_headings_to_bold [(1, ['A']), (1, ['B'])] (by decide) (by decide)

/-- Witness for C10 at an issue-closed trigger. -/
theorem c10_fallthrough_to_edited_witness :
    run ⟨"db123", some "closed", "issues"⟩ netEdit = (["databases.query"], Except.ok ()) :=
  (c10_fallthrough_to_edited ⟨"db123", some "closed", "issues"⟩ netEdit (by decide) (by decide)
    (by decide)).trans rfl

end NotionSync
